import Mathlib

/-!
# Verification of the puissant transaction-ordering engine

Shallow embedding of `core/types/puissant.go`: the merged priority queue
(`puissantTxQueue`), the ordering controller (`TransactionsPuissant`) with its
`Peek`/`Shift`/`Pop`/`Copy`/`ResetEnable` operations, and the package-level bid
comparisons (`HigherBidGasPrice`, `HigherBidGasPriceIntCmp`,
`ReplacedByNewPuissant`).

Conventions of the embedding:
* `*big.Int` pointers are modelled as `Option Int`: `none` is a nil pointer.
  An operation that would dereference a nil pointer (Go panic) yields `none`
  at the result type.
* Go slices/maps mutated in place are modelled by explicit state passing; for
  the aliasing/frame claims a small explicit heap of backing stores is used.
* Fallible operations (Go panics such as indexing an empty slice) return
  `Option`.
-/

/-- Account identity (`common.Address`). -/
abbrev Address := Nat

/-- Package identifier (`PuissantID`); `0` plays the role of the zero value,
for which `pid.IsPuissant()` is false. -/
abbrev PuissantID := Nat

/-- `pid.IsPuissant()`: a package id is "puissant" iff it is not the zero id. -/
def pidIsPuissant (pid : PuissantID) : Bool := pid != 0

/-- Modelled from the spec: the transaction object (`types.Transaction` is not
included under `src/`).  A merged-queue entry carries its gas price, its
arrival timestamp (`tx.Time()`), an optional package-membership descriptor
`(packageID, packageSequence, innerSequence)` returned by
`tx.PuissantID()`/`tx.PuissantInfo()` (with `pid = 0` for plain transactions),
and its recoverable signer (`Sender(signer, tx)`), modelled as a total
function of the transaction. -/
structure Transaction where
  gasPrice : Int
  time : Nat
  pid : PuissantID
  bundleSeq : Nat
  innerSeq : Nat
  sender : Address
  deriving DecidableEq

/-- `tx.IsPuissant()`: the transaction belongs to a package. -/
def Transaction.IsPuissant (tx : Transaction) : Bool := pidIsPuissant tx.pid

/-- `big.Int.Cmp` on two present (non-nil) values: -1/0/+1 by value,
modelled as an `Ordering`. -/
def intCmp (a b : Int) : Ordering :=
  if a < b then .lt else if a = b then .eq else .gt

/-- The `bundleSort` closure inside `puissantTxQueue.Less`: order two package
transactions by package sequence, then by inner sequence. -/
def bundleSort (txI txJ : Transaction) : Bool :=
  if txI.bundleSeq = txJ.bundleSeq then txI.innerSeq < txJ.innerSeq
  else txI.bundleSeq < txJ.bundleSeq

/-- `puissantTxQueue.Less(i, j)` from the source: primary key gas price
(compared with `big.Int.Cmp`, higher first); on a tie, plain-vs-plain falls
back to arrival time, package-vs-package to `bundleSort`, and a package
transaction beats a plain one. -/
def txQueueLess (txI txJ : Transaction) : Bool :=
  let cmp := intCmp txI.gasPrice txJ.gasPrice
  if cmp = .eq then
    let iIsBundle := txI.IsPuissant
    let jIsBundle := txJ.IsPuissant
    if !iIsBundle && !jIsBundle then txI.time < txJ.time
    else if iIsBundle && jIsBundle then bundleSort txI txJ
    else if iIsBundle then true
    else false
  else cmp = .gt

/-- The comparator as the specification states it (claim C1): gas price
descending; at equal price plain-vs-plain by earlier arrival, package
pairs by `(packageSequence, innerSequence)` ascending lexicographically,
and a package transaction beats a plain one. -/
def claimLess (a b : Transaction) : Bool :=
  if a.gasPrice > b.gasPrice then true
  else if b.gasPrice > a.gasPrice then false
  else if !a.IsPuissant && !b.IsPuissant then a.time < b.time
  else if a.IsPuissant && b.IsPuissant then
    (if a.bundleSeq = b.bundleSeq then a.innerSeq < b.innerSeq
     else a.bundleSeq < b.bundleSeq)
  else a.IsPuissant

/-- The source comparator coincides with the comparator described in the
specification (helper form, shared by later developments). -/
theorem txQueueLess_eq_claimLess (a b : Transaction) :
    txQueueLess a b = claimLess a b := by
  unfold txQueueLess claimLess intCmp
  rcases lt_trichotomy a.gasPrice b.gasPrice with h | h | h
  · simp [h, not_lt.mpr (le_of_lt h), ne_of_lt h]
  · simp [h, lt_irrefl, bundleSort]
  · have h1 : ¬ a.gasPrice < b.gasPrice := not_lt.mpr (le_of_lt h)
    have h2 : a.gasPrice ≠ b.gasPrice := ne_of_gt h
    simp [h1, h2, h]

/-- Class rank used only in proofs: package transactions rank before plain
ones when gas prices tie. -/
def classRank (tx : Transaction) : Nat := if tx.IsPuissant then 0 else 1

/-- Third comparison key (proof helper): package sequence for package
transactions, arrival time for plain ones. -/
def key3 (tx : Transaction) : Nat := if tx.IsPuissant then tx.bundleSeq else tx.time

/-- Fourth comparison key (proof helper): inner sequence for package
transactions, constant for plain ones. -/
def key4 (tx : Transaction) : Nat := if tx.IsPuissant then tx.innerSeq else 0

/-- The claim-side comparator is the strict lexicographic order on the key
`(gas price descending, class rank, key3, key4)`. -/
theorem claimLess_iff (a b : Transaction) :
    claimLess a b = true ↔
      (b.gasPrice < a.gasPrice ∨ (a.gasPrice = b.gasPrice ∧
        (classRank a < classRank b ∨ (classRank a = classRank b ∧
          (key3 a < key3 b ∨ (key3 a = key3 b ∧ key4 a < key4 b)))))) := by
  unfold claimLess classRank key3 key4
  rcases lt_trichotomy a.gasPrice b.gasPrice with h | h | h
  · have h1 : ¬ b.gasPrice < a.gasPrice := not_lt.mpr (le_of_lt h)
    have h2 : a.gasPrice ≠ b.gasPrice := ne_of_lt h
    simp [h, h1, h2]
  · cases hA : a.IsPuissant <;> cases hB : b.IsPuissant <;>
      by_cases hseq : a.bundleSeq = b.bundleSeq <;>
        simp [h, lt_irrefl, hA, hB, hseq]
  · simp [h, not_lt.mpr (le_of_lt h), ne_of_gt h]

/-- The Go sort predicate packaged as a boolean "less-or-equivalent" relation:
`txLe a b` holds iff `b` is not strictly better than `a`.  `sort.Sort` with
`puissantTxQueue.Less` produces a sequence pairwise ordered by this
relation. -/
def txLe (a b : Transaction) : Bool := !txQueueLess b a

theorem txLe_total (a b : Transaction) : (txLe a b || txLe b a) = true := by
  by_contra h
  simp only [txLe, Bool.or_eq_true, Bool.not_eq_true', not_or] at h
  obtain ⟨h1, h2⟩ := h
  rw [Bool.not_eq_false] at h1 h2
  rw [txQueueLess_eq_claimLess, claimLess_iff] at h1 h2
  omega

theorem txLe_trans (a b c : Transaction) :
    txLe a b = true → txLe b c = true → txLe a c = true := by
  intro h1 h2
  simp only [txLe, Bool.not_eq_true'] at h1 h2 ⊢
  rw [txQueueLess_eq_claimLess, ← Bool.not_eq_true, claimLess_iff] at h1 h2 ⊢
  omega

/-- `sort.Sort(&headsAndBundleTxs)` from the source, modelled as a sort of the
queue under `puissantTxQueue.Less` (Go's sort promises exactly this: the
result is a permutation of the input that is pairwise ordered by the
comparator -- any correct sort realizes it, and the proofs below rely only on
the permutation and sortedness theorems). -/
def sortQ (l : List Transaction) : List Transaction :=
  List.insertionSort (fun a b => txQueueLess b a = false) l

/-- The queue is sorted under the comparator: no entry is strictly better
than any entry preceding it. -/
def QueueSorted (q : List Transaction) : Prop :=
  q.Pairwise (fun a b => txQueueLess b a = false)

instance : IsTotal Transaction (fun a b => txQueueLess b a = false) := by
  constructor
  intro a b
  have h := txLe_total a b
  simp only [txLe, Bool.or_eq_true, Bool.not_eq_true'] at h
  tauto

instance : IsTrans Transaction (fun a b => txQueueLess b a = false) := by
  constructor
  intro a b c hab hbc
  have h := txLe_trans a b c
  simp only [txLe, Bool.not_eq_true'] at h
  exact h hab hbc

theorem sortQ_perm (l : List Transaction) : (sortQ l).Perm l :=
  List.perm_insertionSort _ l

theorem sortQ_sorted (l : List Transaction) : QueueSorted (sortQ l) :=
  List.sorted_insertionSort _ l

/-- The Go map `map[common.Address]Transactions`, modelled as an association
list (one entry per key; `Nodup` on keys is assumed where needed). -/
abbrev AMap := List (Address × List Transaction)

/-- Go map read `m[a]`: `none` when the key is absent. -/
def mapLookup : AMap → Address → Option (List Transaction)
  | [], _ => none
  | (k, v) :: rest, a => if k = a then some v else mapLookup rest a

/-- Go map write `m[a] = v`: replaces the entry in place, inserting when the
key is absent. -/
def mapUpdate : AMap → Address → List Transaction → AMap
  | [], a, v => [(a, v)]
  | (k, w) :: rest, a, v =>
      if k = a then (a, v) :: rest else (k, w) :: mapUpdate rest a v

/-- The per-account loop of `NewTransactionsPuissant`: for each account,
check that the signer of the first transaction matches the account key; on a
mismatch delete the whole entry (`delete(txs, from)`); otherwise emit the head
into the queue and keep the tail as the account's backlog
(`txs[from] = accTxs[1:]`).  Returns the collected heads (in entry order) and
the resulting map.  Indexing `accTxs[0]` of an empty list is a Go panic,
modelled as `none`. -/
def collectHeads : AMap → Option (List Transaction × AMap)
  | [] => some ([], [])
  | (a, accTxs) :: rest => do
      let (hs, m) ← collectHeads rest
      match accTxs with
      | [] => none
      | tx0 :: tl =>
          if tx0.sender = a then some (tx0 :: hs, (a, tl) :: m)
          else some (hs, m)

/-- The `TransactionsPuissant` controller state: remaining per-account
backlog (`txs`), the merged queue (`txHeadsAndPuissant`), and the enabled
package-id set (`enabled`, kept as a list whose membership is the set). -/
structure TPState where
  txs : AMap
  queue : List Transaction
  enabled : List PuissantID
  deriving DecidableEq

/-- `PuissantPackage`: id, ordered transactions, expiry, and the cached bid
gas price (a `*big.Int`, hence `Option Int`). -/
structure PuissantPackage where
  id : PuissantID
  txs : List Transaction
  maxTimestamp : Nat
  bidGasPrice : Option Int
  deriving DecidableEq

/-- `NewTransactionsPuissant(signer, txs, packages)` from the source: run the
per-account loop, append every transaction of every package, sort once under
the comparator, and start with an empty enabled set. -/
def newTransactionsPuissant (m : AMap) (packages : List PuissantPackage) :
    Option TPState := do
  let (hs, m1) ← collectHeads m
  let headsAndBundleTxs := hs ++ (packages.map PuissantPackage.txs).flatten
  some { txs := m1, queue := sortQ headsAndBundleTxs, enabled := [] }

/-- The eligibility test inside `Peek`: the head is purged when it carries a
puissant package id that is not in the enabled set. -/
def badHead (enabled : List PuissantID) (tx : Transaction) : Bool :=
  pidIsPuissant tx.pid && !(enabled.contains tx.pid)

/-- `Peek` on the raw queue: an empty queue yields no candidate; an
ineligible head is permanently removed (`t.Pop()`) and peeking recurses;
otherwise the head is returned and the queue is left as is. -/
def peekQueue : List Transaction → List PuissantID →
    Option Transaction × List Transaction
  | [], _ => (none, [])
  | tx :: rest, enabled =>
      if badHead enabled tx then peekQueue rest enabled
      else (some tx, tx :: rest)

/-- `TransactionsPuissant.Peek`: returns the best eligible candidate and the
(possibly purged) state. -/
def peekTP (s : TPState) : Option Transaction × TPState :=
  let (r, q) := peekQueue s.queue s.enabled
  (r, { s with queue := q })

/-- `TransactionsPuissant.Pop`: drop the head when the queue is nonempty. -/
def popTP (s : TPState) : TPState :=
  if s.queue.length > 0 then { s with queue := s.queue.tail } else s

/-- `TransactionsPuissant.Shift`: recover the head's sender; on a plain head
whose account still has backlog, replace the head with the next backlog
transaction and re-sort the whole queue; otherwise fall through to `Pop`.
Indexing `t.txHeadsAndPuissant[0]` of an empty queue is a Go panic, modelled
as `none`. -/
def shiftTP (s : TPState) : Option TPState :=
  match s.queue with
  | [] => none
  | head :: rest =>
      if !head.IsPuissant then
        match mapLookup s.txs head.sender with
        | some (b :: bs) =>
            some { s with
              queue := sortQ (b :: rest),
              txs := mapUpdate s.txs head.sender bs }
        | _ => some (popTP s)
      else some (popTP s)

/-- `TransactionsPuissant.ResetEnable`: clear the enabled set and add exactly
the given package ids. -/
def resetEnable (s : TPState) (pids : List PuissantID) : TPState :=
  { s with enabled := pids }

/-- The operations the block-assembly loop may drive the controller with. -/
inductive Op where
  | peek
  | shift
  | pop
  | reset (pids : List PuissantID)
  deriving DecidableEq

/-- One controller step; `none` is a fault (Go panic). -/
def stepTP : Op → TPState → Option TPState
  | .peek, s => some (peekTP s).2
  | .shift, s => shiftTP s
  | .pop, s => some (popTP s)
  | .reset pids, s => some (resetEnable s pids)

/-- Driving the controller through a sequence of operations. -/
def runTP : List Op → TPState → Option TPState
  | [], s => some s
  | op :: ops, s => (stepTP op s).bind (runTP ops)

/-- `big.Int.Cmp(x, y)` on nullable pointers.  Two nil pointers are the same
value in Go (`x == y` gives 0); comparing a nil pointer against a non-nil one
dereferences the nil side and panics (`none`). -/
def bigCmp : Option Int → Option Int → Option Ordering
  | none, none => some .eq
  | some a, some b => some (intCmp a b)
  | _, _ => none

/-- `big.Int.Mul` on nullable operands: dereferences both, so any nil operand
panics (`none`). -/
def bigMul : Option Int → Option Int → Option Int
  | some a, some b => some (a * b)
  | _, _ => none

/-- `PuissantPackage.HigherBidGasPrice`: `pp.bidGasPrice.Cmp(with.bidGasPrice) > 0`. -/
def HigherBidGasPrice (pp w : PuissantPackage) : Option Bool :=
  (bigCmp pp.bidGasPrice w.bidGasPrice).map (fun o => o = .gt)

/-- `PuissantPackage.HigherBidGasPriceIntCmp`: compare the cached bid against
a raw `*big.Int` price. -/
def HigherBidGasPriceIntCmp (pp : PuissantPackage) (w : Option Int) : Option Bool :=
  (bigCmp pp.bidGasPrice w).map (fun o => o = .gt)

/-- Go conversion `int64(u)` of a `uint64`: two's-complement reinterpretation. -/
def toInt64 (u : Nat) : Int :=
  let r : Nat := u % 2 ^ 64
  if r < 2 ^ 63 then (r : Int) else (r : Int) - 2 ^ 64

/-- Wrapping 64-bit signed arithmetic, for the Go expression
`100 + int64(priceBump)`. -/
def int64Wrap (x : Int) : Int := (x + 2 ^ 63) % 2 ^ 64 - 2 ^ 63

/-- `PuissantPackage.ReplacedByNewPuissant(np, priceBump)` from the source:
`oldP := pp.bid * big.NewInt(100 + int64(priceBump))`,
`newP := np.bid * 100`, result `newP.Cmp(oldP) > 0`.  The multiplier is
computed in wrapping 64-bit signed arithmetic; a nil bid price on either side
panics in `Mul`. -/
def ReplacedByNewPuissant (pp np : PuissantPackage) (priceBump : Nat) : Option Bool :=
  match pp.bidGasPrice, np.bidGasPrice with
  | some oldBid, some newBid =>
      some (newBid * 100 > oldBid * int64Wrap (100 + toInt64 priceBump))
  | _, _ => none

/-- The signer check an account entry must pass in `NewTransactionsPuissant`:
nonempty and the first transaction recovers to the account key. -/
def passes (e : Address × List Transaction) : Bool :=
  match e.2 with
  | [] => false
  | tx0 :: _ => tx0.sender = e.1

/-- The queue heads contributed by the per-account loop: the first
transaction of every entry passing the signer check, in entry order. -/
def specHeads (m : AMap) : List Transaction :=
  (m.filter passes).filterMap (fun e => e.2.head?)

/-- The backlog map left by the per-account loop: entries passing the signer
check keep their tail; the others are deleted. -/
def specBacklog (m : AMap) : AMap :=
  (m.filter passes).map (fun e => (e.1, e.2.tail))

/-- On inputs where every account has at least one pending transaction, the
per-account loop succeeds and produces exactly the passing heads and the
tail backlog. -/
theorem collectHeads_eq (m : AMap) (hne : ∀ e ∈ m, e.2 ≠ []) :
    collectHeads m = some (specHeads m, specBacklog m) := by
  induction m with
  | nil => rfl
  | cons e rest ih =>
      obtain ⟨a, l⟩ := e
      have hl : l ≠ [] := hne (a, l) (List.mem_cons_self _ _)
      have ih' := ih (fun e he => hne e (List.mem_cons_of_mem _ he))
      cases l with
      | nil => exact absurd rfl hl
      | cons tx0 tl =>
          by_cases hs : tx0.sender = a
          · simp [collectHeads, ih', specHeads, specBacklog, passes, hs,
              List.filter_cons]
          · simp [collectHeads, ih', specHeads, specBacklog, passes, hs,
              List.filter_cons]

/-- The fragment of the Go heap the controller mutates: backing arrays of
queue slices, backlog map objects, and enabled-set objects, each addressed by
an allocation index. -/
structure GoHeap where
  qarrs : List (List Transaction)
  amaps : List AMap
  psets : List (List PuissantID)
  deriving DecidableEq

/-- A `*TransactionsPuissant` value: the struct holds a slice header
(backing array index, offset, length) for `txHeadsAndPuissant`, a map
reference for `txs` and a set reference for `enabled`. -/
structure TPRef where
  qarr : Nat
  qoff : Nat
  qlen : Nat
  mref : Nat
  eref : Nat
  deriving DecidableEq

/-- The queue contents a controller sees through its slice header. -/
def viewQueue (h : GoHeap) (t : TPRef) : List Transaction :=
  ((h.qarrs.getD t.qarr []).drop t.qoff).take t.qlen

/-- The backlog map contents a controller sees. -/
def viewMap (h : GoHeap) (t : TPRef) : AMap := h.amaps.getD t.mref []

/-- The enabled-set contents a controller sees. -/
def viewEnabled (h : GoHeap) (t : TPRef) : List PuissantID :=
  h.psets.getD t.eref []

/-- Overwrite the slice region `[off, off+len)` of a backing array. -/
def writeRegion (arr : List Transaction) (off len : Nat)
    (new : List Transaction) : List Transaction :=
  arr.take off ++ new ++ arr.drop (off + len)

/-- `TransactionsPuissant.Copy`: allocate a fresh backing array holding the
current queue contents (`make` + `copy`), a fresh map with the same entries,
and a clone of the enabled set; the new struct starts at offset 0. -/
def hCopy (h : GoHeap) (t : TPRef) : GoHeap × TPRef :=
  (⟨h.qarrs ++ [viewQueue h t], h.amaps ++ [viewMap h t],
    h.psets ++ [viewEnabled h t]⟩,
   ⟨h.qarrs.length, 0, (viewQueue h t).length, h.amaps.length,
    h.psets.length⟩)

/-- `Pop` on the heap: reslicing `t.txHeadsAndPuissant[1:]` only moves the
slice header stored in the struct. -/
def hPop (h : GoHeap) (t : TPRef) : GoHeap × TPRef :=
  if t.qlen > 0 then (h, { t with qoff := t.qoff + 1, qlen := t.qlen - 1 })
  else (h, t)

/-- `Peek` on the heap: the lazy purge is a sequence of `Pop`s, so only the
slice header moves; the result queue is a suffix of the viewed queue. -/
def hPeek (h : GoHeap) (t : TPRef) : Option Transaction × GoHeap × TPRef :=
  let q := (peekQueue (viewQueue h t) (viewEnabled h t)).2
  ((peekQueue (viewQueue h t) (viewEnabled h t)).1, h,
   { t with qoff := t.qoff + (t.qlen - q.length), qlen := q.length })

/-- `Shift` on the heap: the replace branch writes the head slot and sorts
the slice region in place (mutating the controller's own backing array) and
writes the controller's own map; the other branches are `Pop`. -/
def hShift (h : GoHeap) (t : TPRef) : Option (GoHeap × TPRef) :=
  match viewQueue h t with
  | [] => none
  | head :: rest =>
      if !head.IsPuissant then
        match mapLookup (viewMap h t) head.sender with
        | some (b :: bs) =>
            some ({ h with
              qarrs := h.qarrs.set t.qarr
                (writeRegion (h.qarrs.getD t.qarr []) t.qoff t.qlen
                  (sortQ (b :: rest))),
              amaps := h.amaps.set t.mref
                (mapUpdate (viewMap h t) head.sender bs) }, t)
        | _ => some (hPop h t)
      else some (hPop h t)

/-- `ResetEnable` on the heap: clears and refills the controller's own
enabled-set object. -/
def hReset (h : GoHeap) (t : TPRef) (pids : List PuissantID) :
    GoHeap × TPRef :=
  ({ h with psets := h.psets.set t.eref pids }, t)

/-- One heap-level controller step; `none` is a fault. -/
def applyH : Op → GoHeap → TPRef → Option (GoHeap × TPRef)
  | .peek, h, t => some (hPeek h t).2
  | .shift, h, t => hShift h t
  | .pop, h, t => some (hPop h t)
  | .reset pids, h, t => some (hReset h t pids)

/-- `NewTransactionsPuissant` on the heap: the controller keeps the caller's
map object (`t.txs = txs`) and mutates it in place during the per-account
loop; the queue gets a fresh backing array and the enabled set a fresh empty
object. -/
def hNewTP (h : GoHeap) (mref : Nat) (packages : List PuissantPackage) :
    Option (GoHeap × TPRef) :=
  match collectHeads (h.amaps.getD mref []) with
  | none => none
  | some (hs, m1) =>
      let q := sortQ (hs ++ (packages.map PuissantPackage.txs).flatten)
      some ({ h with
          qarrs := h.qarrs ++ [q],
          amaps := h.amaps.set mref m1,
          psets := h.psets ++ [[]] },
        ⟨h.qarrs.length, 0, q.length, mref, h.psets.length⟩)

/-- C1: the merged-queue comparator, best candidate first, is exactly the
order stated in the specification: gas price descending; at equal price,
plain-vs-plain by earlier arrival timestamp, two package transactions by
package sequence then inner sequence ascending, and a package transaction
beats a plain one. -/
theorem c1_merged_queue_comparator (a b : Transaction) :
    txQueueLess a b = claimLess a b :=
  txQueueLess_eq_claimLess a b

/-- C6 counterexample: `ReplacedByNewPuissant` does not compute
`candidate * 100 > incumbent * (100 + minBumpPercent)` for every `uint64`
bump.  At `minBumpPercent = 2^63 - 100` the Go expression
`100 + int64(priceBump)` overflows to `-2^63`, so with both bids 1 the code
returns true while the claimed formula is false. -/
theorem c6_counterexample :
    ReplacedByNewPuissant ⟨1, [], 0, some 1⟩ ⟨2, [], 0, some 1⟩ (2 ^ 63 - 100)
        = some true ∧
      ¬((1 : Int) * 100 > 1 * (100 + ((2 ^ 63 - 100 : Nat) : Int))) := by
  constructor
  · decide
  · decide

/-- C6 amended: for packages with present bid prices and
`minBumpPercent ≤ 2^63 - 101` (no signed-64-bit overflow in the multiplier),
`ReplacedByNewPuissant` returns true iff
`candidate.bidPrice * 100 > incumbent.bidPrice * (100 + minBumpPercent)`,
in exact integer arithmetic with strict inequality. -/
theorem c6_replacement_threshold (pp np : PuissantPackage) (oldBid newBid : Int)
    (hpp : pp.bidGasPrice = some oldBid) (hnp : np.bidGasPrice = some newBid)
    (pb : Nat) (hpb : pb ≤ 2 ^ 63 - 101) :
    ReplacedByNewPuissant pp np pb =
      some (decide (newBid * 100 > oldBid * (100 + (pb : Int)))) := by
  unfold ReplacedByNewPuissant
  rw [hpp, hnp]
  have hlt : pb < 2 ^ 63 := by omega
  have h1 : toInt64 pb = (pb : Int) := by
    unfold toInt64
    have hm : pb % 2 ^ 64 = pb := Nat.mod_eq_of_lt (by omega)
    simp only [hm]
    rw [if_pos hlt]
  have h2 : int64Wrap (100 + (pb : Int)) = 100 + (pb : Int) := by
    unfold int64Wrap
    omega
  rw [h1, h2]

/-- C6 witness: with incumbent bid 100 and a 10 percent minimum bump, a
candidate bid of 110 does not supersede and a candidate bid of 111 does. -/
theorem c6_witness :
    ReplacedByNewPuissant ⟨1, [], 0, some 100⟩ ⟨2, [], 0, some 110⟩ 10
        = some false ∧
      ReplacedByNewPuissant ⟨1, [], 0, some 100⟩ ⟨3, [], 0, some 111⟩ 10
        = some true := by
  constructor
  · rw [c6_replacement_threshold _ _ 100 110 rfl rfl 10 (by norm_num)]
    decide
  · rw [c6_replacement_threshold _ _ 100 111 rfl rfl 10 (by norm_num)]
    decide

/-- `big.Int.Cmp` returns `.gt` exactly when the first value is larger. -/
theorem intCmp_gt_iff (a b : Int) : intCmp a b = .gt ↔ b < a := by
  unfold intCmp
  split_ifs with h1 h2 <;> simp <;> omega

/-- C9 counterexample: comparing a present bid against an absent (nil) bid
does not treat the nil side as strictly lower -- it dereferences the nil
`*big.Int` and panics (modelled as `none`), in both argument orders. -/
theorem c9_counterexample :
    HigherBidGasPrice ⟨1, [], 0, some 5⟩ ⟨2, [], 0, none⟩ = none ∧
      HigherBidGasPrice ⟨2, [], 0, none⟩ ⟨1, [], 0, some 5⟩ = none := by
  exact ⟨rfl, rfl⟩

/-- C9 amended: the bid comparisons perform no nil handling.  With both
prices present they are exact and total (`HigherBidGasPrice` decides the
strict comparison and `ReplacedByNewPuissant` returns a value); with exactly
one side absent every comparison faults on the nil dereference; with both
sides absent the nil pointers compare equal, so neither package is the
higher bidder. -/
theorem c9_nil_bid_behavior :
    (∀ pp np : PuissantPackage, ∀ a b : Int, pp.bidGasPrice = some a →
        np.bidGasPrice = some b →
        HigherBidGasPrice pp np = some (decide (b < a)) ∧
        HigherBidGasPriceIntCmp pp (some b) = some (decide (b < a)) ∧
        ∀ pb, (ReplacedByNewPuissant pp np pb).isSome) ∧
    (∀ pp np : PuissantPackage, ∀ a : Int, pp.bidGasPrice = some a →
        np.bidGasPrice = none →
        HigherBidGasPrice pp np = none ∧ HigherBidGasPrice np pp = none ∧
        HigherBidGasPriceIntCmp pp none = none ∧
        ∀ pb, ReplacedByNewPuissant pp np pb = none ∧
          ReplacedByNewPuissant np pp pb = none) ∧
    (∀ pp np : PuissantPackage, pp.bidGasPrice = none → np.bidGasPrice = none →
        HigherBidGasPrice pp np = some false) := by
  refine ⟨?_, ?_, ?_⟩
  · intro pp np a b hpp hnp
    refine ⟨?_, ?_, ?_⟩
    · simp [HigherBidGasPrice, bigCmp, hpp, hnp, decide_eq_decide, intCmp_gt_iff]
    · simp [HigherBidGasPriceIntCmp, bigCmp, hpp, decide_eq_decide, intCmp_gt_iff]
    · intro pb
      simp [ReplacedByNewPuissant, hpp, hnp]
  · intro pp np a hpp hnp
    refine ⟨?_, ?_, ?_, ?_⟩
    · simp [HigherBidGasPrice, bigCmp, hpp, hnp]
    · simp [HigherBidGasPrice, bigCmp, hpp, hnp]
    · simp [HigherBidGasPriceIntCmp, bigCmp, hpp]
    · intro pb
      constructor <;> simp [ReplacedByNewPuissant, hpp, hnp]
  · intro pp np hpp hnp
    simp [HigherBidGasPrice, bigCmp, hpp, hnp]

/-- C9 witness: a present 7 beats a present 5, and a 5-vs-7 comparison with
both prices present returns a value. -/
theorem c9_witness :
    HigherBidGasPrice ⟨1, [], 0, some 7⟩ ⟨2, [], 0, some 5⟩ = some true := by
  have h := (c9_nil_bid_behavior.1 ⟨1, [], 0, some 7⟩ ⟨2, [], 0, some 5⟩
    7 5 rfl rfl).1
  rw [h]
  decide

/-- `Peek` purges exactly the longest ineligible prefix: it returns the head
of what remains, and the remaining queue is the input with the ineligible
prefix removed. -/
theorem peekQueue_eq (q : List Transaction) (en : List PuissantID) :
    peekQueue q en =
      ((q.dropWhile (badHead en)).head?, q.dropWhile (badHead en)) := by
  induction q with
  | nil => rfl
  | cons tx rest ih =>
      by_cases h : badHead en tx
      · simp [peekQueue, h, List.dropWhile_cons, ih]
      · simp [peekQueue, h, List.dropWhile_cons]

/-- C3: `Peek` drops (permanently) the maximal prefix of queue heads that
belong to packages outside the enabled set, touches neither the backlog nor
the enabled set, and returns the first remaining candidate without consuming
it; every purged entry was ineligible, the returned candidate is eligible,
and an empty queue yields the explicit no-candidate result `none`. -/
theorem c3_peek_lazy_purge (s : TPState) :
    (peekTP s).2.txs = s.txs ∧ (peekTP s).2.enabled = s.enabled ∧
    (peekTP s).2.queue = s.queue.dropWhile (badHead s.enabled) ∧
    (peekTP s).1 = (peekTP s).2.queue.head? ∧
    (∀ tx ∈ s.queue.takeWhile (badHead s.enabled),
      badHead s.enabled tx = true) ∧
    (∀ tx, (peekTP s).1 = some tx → badHead s.enabled tx = false) ∧
    (s.queue = [] → (peekTP s).1 = none) := by
  refine ⟨?_, ?_, ?_, ?_, ?_, ?_, ?_⟩
  · simp [peekTP, peekQueue_eq]
  · simp [peekTP, peekQueue_eq]
  · simp [peekTP, peekQueue_eq]
  · simp [peekTP, peekQueue_eq]
  · intro tx htx
    exact List.mem_takeWhile_imp htx
  · intro tx htx
    simp only [peekTP, peekQueue_eq] at htx
    have h := List.head?_dropWhile_not (badHead s.enabled) s.queue
    rw [htx] at h
    simpa using h
  · intro h
    simp [peekTP, peekQueue_eq, h]

/-- Fixed example transactions used by the concrete witnesses below. -/
def txPlainA : Transaction := ⟨5, 1, 0, 0, 0, 1⟩

/-- A second plain transaction from the same account, arriving later. -/
def txPlainA2 : Transaction := ⟨5, 2, 0, 0, 0, 1⟩

/-- A plain transaction of another account with a higher gas price. -/
def txPlainB : Transaction := ⟨7, 3, 0, 0, 0, 2⟩

/-- A package transaction (package id 9, package sequence 1, inner 0). -/
def txPkg1 : Transaction := ⟨5, 0, 9, 1, 0, 3⟩

/-- A second transaction of the same package (inner sequence 1). -/
def txPkg2 : Transaction := ⟨5, 0, 9, 1, 1, 3⟩

/-- C3 witness: with package 9 disabled, peeking purges both package
transactions and returns the plain candidate behind them. -/
theorem c3_peek_witness :
    (peekTP ⟨[], [txPkg1, txPkg2, txPlainA], []⟩).1 = some txPlainA ∧
    (peekTP ⟨[], [txPkg1, txPkg2, txPlainA], []⟩).2.queue = [txPlainA] := by
  have h := c3_peek_lazy_purge ⟨[], [txPkg1, txPkg2, txPlainA], []⟩
  refine ⟨?_, ?_⟩
  · rw [h.2.2.2.1, h.2.2.1]
    decide
  · rw [h.2.2.1]
    decide

/-- C8 counterexample: `Shift` on a controller with an empty queue is not a
no-op -- it indexes element 0 of the empty queue slice and panics (modelled
as `none`). -/
theorem c8_counterexample :
    shiftTP { txs := [], queue := [], enabled := [] } = none := rfl

/-- C8 amended: `Pop` on an empty queue is a no-op and does not fault, and
`Shift` never faults on a nonempty queue, but `Shift` on an empty queue
faults (index out of range on the empty queue slice). -/
theorem c8_empty_queue_ops :
    (∀ s : TPState, s.queue = [] → popTP s = s) ∧
    (∀ s : TPState, s.queue = [] → shiftTP s = none) ∧
    (∀ s : TPState, s.queue ≠ [] → (shiftTP s).isSome) := by
  refine ⟨?_, ?_, ?_⟩
  · intro s h
    simp [popTP, h]
  · intro s h
    simp [shiftTP, h]
  · intro s h
    cases hq : s.queue with
    | nil => exact absurd hq h
    | cons head rest =>
        unfold shiftTP
        rw [hq]
        dsimp only
        split
        · split <;> simp
        · simp

/-- C8 witness: popping an empty controller returns it unchanged, and
shifting a nonempty controller returns a state. -/
theorem c8_witness :
    popTP ⟨[], [], []⟩ = (⟨[], [], []⟩ : TPState) ∧
    (shiftTP ⟨[], [txPlainA], []⟩).isSome :=
  ⟨c8_empty_queue_ops.1 _ rfl, c8_empty_queue_ops.2.2 _ (by decide)⟩

/-- Reading back the key just written. -/
theorem mapLookup_mapUpdate_self (m : AMap) (a : Address)
    (v : List Transaction) : mapLookup (mapUpdate m a v) a = some v := by
  induction m with
  | nil => simp [mapUpdate, mapLookup]
  | cons e rest ih =>
      obtain ⟨k, w⟩ := e
      by_cases h : k = a
      · simp [mapUpdate, mapLookup, h]
      · simp [mapUpdate, mapLookup, h, ih]

/-- Writing one key leaves every other key unchanged. -/
theorem mapLookup_mapUpdate_ne (m : AMap) (a a' : Address)
    (v : List Transaction) (h : a' ≠ a) :
    mapLookup (mapUpdate m a v) a' = mapLookup m a' := by
  induction m with
  | nil =>
      have hne : ¬ a = a' := fun hh => h hh.symm
      simp [mapUpdate, mapLookup, hne]
  | cons e rest ih =>
      obtain ⟨k, w⟩ := e
      by_cases hk : k = a
      · subst hk
        have hne : ¬ k = a' := fun hh => h hh.symm
        simp [mapUpdate, mapLookup, hne]
      · simp [mapUpdate, mapLookup, hk, ih]

/-- `Pop` on a nonempty queue drops exactly the head. -/
theorem popTP_cons (s : TPState) (head : Transaction)
    (rest : List Transaction) (hq : s.queue = head :: rest) :
    popTP s = { s with queue := rest } := by
  simp [popTP, hq]

/-- C4: `Shift` on a nonempty queue.  A package head, or a plain head whose
account has no backlog left, is simply dropped (same effect as `Pop`); a
plain head whose account still has backlog is replaced by the account's next
backlog transaction, that transaction leaves the backlog (other accounts
untouched), and the whole queue is re-sorted under the comparator. -/
theorem c4_shift_behavior (s : TPState) (head : Transaction)
    (rest : List Transaction) (hq : s.queue = head :: rest) :
    (head.IsPuissant = true → shiftTP s = some { s with queue := rest }) ∧
    (head.IsPuissant = false → (mapLookup s.txs head.sender).getD [] = [] →
      shiftTP s = some { s with queue := rest }) ∧
    (∀ b bs, head.IsPuissant = false →
      mapLookup s.txs head.sender = some (b :: bs) →
      ∃ s', shiftTP s = some s' ∧ s'.enabled = s.enabled ∧
        s'.queue.Perm (b :: rest) ∧ QueueSorted s'.queue ∧
        mapLookup s'.txs head.sender = some bs ∧
        ∀ a, a ≠ head.sender → mapLookup s'.txs a = mapLookup s.txs a) := by
  refine ⟨?_, ?_, ?_⟩
  · intro hp
    unfold shiftTP
    rw [hq]
    dsimp only
    rw [if_neg (by simp [hp])]
    rw [popTP_cons s head rest hq]
  · intro hp hl
    unfold shiftTP
    rw [hq]
    dsimp only
    rw [if_pos (by simp [hp])]
    cases hml : mapLookup s.txs head.sender with
    | none => rw [popTP_cons s head rest hq]
    | some l =>
        cases l with
        | nil => rw [popTP_cons s head rest hq]
        | cons b bs => rw [hml] at hl; simp at hl
  · intro b bs hp hml
    refine ⟨⟨mapUpdate s.txs head.sender bs, sortQ (b :: rest), s.enabled⟩,
      ?_, rfl, sortQ_perm _, sortQ_sorted _,
      mapLookup_mapUpdate_self _ _ _,
      fun a ha => mapLookup_mapUpdate_ne _ _ _ _ ha⟩
    unfold shiftTP
    rw [hq]
    dsimp only
    rw [if_pos (by simp [hp]), hml]

/-- C4 witness: shifting a plain head with remaining backlog pulls the next
backlog transaction into the queue and removes it from the backlog. -/
theorem c4_shift_witness :
    ∃ s', shiftTP ⟨[(1, [txPlainA2])], [txPlainA], []⟩ = some s' ∧
      s'.queue.Perm [txPlainA2] ∧
      mapLookup s'.txs txPlainA.sender = some [] := by
  obtain ⟨s', hs, _, hperm, _, hlook, _⟩ :=
    (c4_shift_behavior ⟨[(1, [txPlainA2])], [txPlainA], []⟩ txPlainA [] rfl).2.2
      txPlainA2 [] (by decide) (by decide)
  exact ⟨s', hs, hperm, hlook⟩

/-- C2: construction of the ordering controller.  When every account has at
least one pending transaction, construction succeeds; accounts whose first
transaction does not recover to the account key are dropped entirely, the
remaining accounts contribute their head to the queue and keep their tail as
backlog, every transaction of every package joins the same queue, and the
queue is sorted (once) under the comparator.  The enabled set starts
empty. -/
theorem c2_controller_construction (m : AMap) (packages : List PuissantPackage)
    (hne : ∀ e ∈ m, e.2 ≠ []) :
    ∃ s, newTransactionsPuissant m packages = some s ∧
      s.enabled = [] ∧
      s.txs = specBacklog m ∧
      s.queue.Perm
        (specHeads m ++ (packages.map PuissantPackage.txs).flatten) ∧
      QueueSorted s.queue := by
  refine ⟨⟨specBacklog m,
      sortQ (specHeads m ++ (packages.map PuissantPackage.txs).flatten),
      []⟩, ?_, rfl, rfl, sortQ_perm _, sortQ_sorted _⟩
  unfold newTransactionsPuissant
  rw [collectHeads_eq m hne]
  rfl

/-- C2 witness: account 1 passes the signer check (head enqueued, tail kept),
account 4 fails it (sender 2) and is dropped wholesale; the resulting backlog
is exactly account 1's tail. -/
theorem c2_construction_witness :
    ∃ s, newTransactionsPuissant
        [(1, [txPlainA, txPlainA2]), (4, [txPlainB])]
        [⟨9, [txPkg1, txPkg2], 100, some 5⟩] = some s ∧
      s.txs = [(1, [txPlainA2])] := by
  obtain ⟨s, hs, _, htxs, _, _⟩ :=
    c2_controller_construction [(1, [txPlainA, txPlainA2]), (4, [txPlainB])]
      [⟨9, [txPkg1, txPkg2], 100, some 5⟩] (by decide)
  refine ⟨s, hs, ?_⟩
  rw [htxs]
  decide

/-- Reading a heap cell other than the one written. -/
theorem getD_set_ne {α : Type} (l : List α) (i j : Nat) (x d : α)
    (hij : i ≠ j) : (l.set i x).getD j d = l.getD j d := by
  simp [List.getD, List.getElem?_set_ne hij]

/-- Reading a heap cell written in bounds. -/
theorem getD_set_self {α : Type} (l : List α) (i : Nat) (x d : α)
    (hi : i < l.length) : (l.set i x).getD i d = x := by
  simp [List.getD, List.getElem?_set_self', hi]

/-- Allocation does not disturb existing cells. -/
theorem getD_append_lt {α : Type} (l l2 : List α) (j : Nat) (d : α)
    (hj : j < l.length) : (l ++ l2).getD j d = l.getD j d := by
  simp [List.getD, List.getElem?_append_left hj]

/-- Reading a freshly allocated cell. -/
theorem getD_append_len {α : Type} (l : List α) (x d : α) :
    (l ++ [x]).getD l.length d = x := by
  simp [List.getD]

/-- A key missing from a map is also missing from the constructed backlog. -/
theorem mapLookup_specBacklog_notmem (m : AMap) (a : Address)
    (h : a ∉ m.map Prod.fst) : mapLookup (specBacklog m) a = none := by
  induction m with
  | nil => rfl
  | cons e rest ih =>
      obtain ⟨k, w⟩ := e
      simp only [List.map_cons, List.mem_cons, not_or] at h
      obtain ⟨hk, hrest⟩ := h
      have hne : ¬ k = a := fun hh => hk hh.symm
      by_cases hp : passes (k, w)
      · simp only [specBacklog, List.filter_cons]
        rw [if_pos (by simpa using hp)]
        simp only [List.map_cons, mapLookup]
        rw [if_neg hne]
        have hih := ih hrest
        unfold specBacklog at hih
        exact hih
      · simp only [specBacklog, List.filter_cons]
        rw [if_neg (by simp [hp])]
        exact ih hrest

/-- An account failing the signer check is deleted from the backlog map. -/
theorem mapLookup_specBacklog_fail (m : AMap)
    (hnd : (m.map Prod.fst).Nodup) (a : Address) (l : List Transaction)
    (hm : (a, l) ∈ m) (hp : passes (a, l) = false) :
    mapLookup (specBacklog m) a = none := by
  induction m with
  | nil => simp at hm
  | cons e rest ih =>
      obtain ⟨k, w⟩ := e
      simp only [List.map_cons, List.nodup_cons] at hnd
      obtain ⟨hknot, hndrest⟩ := hnd
      rcases List.mem_cons.mp hm with heq | hmem
      · have h1 : k = a := congrArg Prod.fst heq.symm
        have h2 : w = l := congrArg Prod.snd heq.symm
        subst h1
        subst h2
        simp only [specBacklog, List.filter_cons]
        rw [if_neg (by simp [hp])]
        apply mapLookup_specBacklog_notmem
        simpa using hknot
      · have hka : k ≠ a := by
          intro hh
          apply hknot
          subst hh
          exact List.mem_map.mpr ⟨(k, l), hmem, rfl⟩
        by_cases hpk : passes (k, w)
        · simp only [specBacklog, List.filter_cons]
          rw [if_pos (by simpa using hpk)]
          simp only [List.map_cons, mapLookup]
          rw [if_neg hka]
          exact ih hndrest hmem
        · simp only [specBacklog, List.filter_cons]
          rw [if_neg (by simp [hpk])]
          exact ih hndrest hmem

/-- An account passing the signer check keeps exactly its tail in the
backlog map. -/
theorem mapLookup_specBacklog_pass (m : AMap)
    (hnd : (m.map Prod.fst).Nodup) (a : Address) (l : List Transaction)
    (hm : (a, l) ∈ m) (hp : passes (a, l) = true) :
    mapLookup (specBacklog m) a = some l.tail := by
  induction m with
  | nil => simp at hm
  | cons e rest ih =>
      obtain ⟨k, w⟩ := e
      simp only [List.map_cons, List.nodup_cons] at hnd
      obtain ⟨hknot, hndrest⟩ := hnd
      rcases List.mem_cons.mp hm with heq | hmem
      · have h1 : k = a := congrArg Prod.fst heq.symm
        have h2 : w = l := congrArg Prod.snd heq.symm
        subst h1
        subst h2
        simp only [specBacklog, List.filter_cons]
        rw [if_pos (by simpa using hp)]
        simp [mapLookup]
      · have hka : k ≠ a := by
          intro hh
          apply hknot
          subst hh
          exact List.mem_map.mpr ⟨(k, l), hmem, rfl⟩
        by_cases hpk : passes (k, w)
        · simp only [specBacklog, List.filter_cons]
          rw [if_pos (by simpa using hpk)]
          simp only [List.map_cons, mapLookup]
          rw [if_neg hka]
          exact ih hndrest hmem
        · simp only [specBacklog, List.filter_cons]
          rw [if_neg (by simp [hpk])]
          exact ih hndrest hmem

/-- C10: the constructor mutates its input map object in place.  After
`hNewTP` the controller still references the caller's map cell (`t'.mref`),
and that cell now holds the post-construction backlog: every account whose
first transaction fails the signer check has been deleted, and every
surviving account's entry has been replaced by its backlog with the head
removed. -/
theorem c10_constructor_mutates_input (h : GoHeap) (mref : Nat)
    (packages : List PuissantPackage) (hm : mref < h.amaps.length)
    (hne : ∀ e ∈ h.amaps.getD mref [], e.2 ≠ [])
    (hnd : ((h.amaps.getD mref []).map Prod.fst).Nodup) :
    ∃ h' t', hNewTP h mref packages = some (h', t') ∧
      t'.mref = mref ∧
      h'.amaps.getD mref [] = specBacklog (h.amaps.getD mref []) ∧
      ∀ a l, (a, l) ∈ h.amaps.getD mref [] →
        (passes (a, l) = false →
          mapLookup (h'.amaps.getD mref []) a = none) ∧
        (passes (a, l) = true →
          mapLookup (h'.amaps.getD mref []) a = some l.tail) := by
  unfold hNewTP
  rw [collectHeads_eq _ hne]
  refine ⟨_, _, rfl, rfl, ?_, ?_⟩
  · exact getD_set_self _ _ _ _ hm
  · intro a l hmem
    rw [getD_set_self _ _ _ _ hm]
    exact ⟨fun hp => mapLookup_specBacklog_fail _ hnd a l hmem hp,
      fun hp => mapLookup_specBacklog_pass _ hnd a l hmem hp⟩

/-- C10 witness: on a concrete heap holding the two-account map, the failing
account's entry is gone from the caller's map and the surviving account's
entry is its tail. -/
theorem c10_witness :
    ∃ h' t', hNewTP ⟨[], [[(1, [txPlainA, txPlainA2]), (4, [txPlainB])]], []⟩
        0 [] = some (h', t') ∧
      mapLookup (h'.amaps.getD 0 []) 4 = none ∧
      mapLookup (h'.amaps.getD 0 []) 1 = some [txPlainA2] := by
  obtain ⟨h', t', hnew, _, _, hacc⟩ :=
    c10_constructor_mutates_input
      ⟨[], [[(1, [txPlainA, txPlainA2]), (4, [txPlainB])]], []⟩ 0 []
      (by decide) (by decide) (by decide)
  refine ⟨h', t', hnew, ?_, ?_⟩
  · exact (hacc 4 [txPlainB] (by decide)).1 (by decide)
  · exact (hacc 1 [txPlainA, txPlainA2] (by decide)).2 (by decide)

/-- `Pop` never touches the heap. -/
theorem hPop_fst (h : GoHeap) (t : TPRef) : (hPop h t).1 = h := by
  unfold hPop
  split <;> rfl

/-- `Shift` writes only the controller's own backing array and map object. -/
theorem hShift_frame (h : GoHeap) (t : TPRef) (h2 : GoHeap) (t2 : TPRef)
    (hop : hShift h t = some (h2, t2)) :
    (∀ j, j ≠ t.qarr → h2.qarrs.getD j [] = h.qarrs.getD j []) ∧
    (∀ j, j ≠ t.mref → h2.amaps.getD j [] = h.amaps.getD j []) ∧
    h2.psets = h.psets := by
  unfold hShift at hop
  split at hop
  · simp at hop
  · split at hop
    · split at hop
      · have hp := congrArg Prod.fst (Option.some.inj hop)
        have hh : h2 = { h with
            qarrs := h.qarrs.set t.qarr
              (writeRegion (h.qarrs.getD t.qarr []) t.qoff t.qlen
                (sortQ _)),
            amaps := h.amaps.set t.mref (mapUpdate (viewMap h t) _ _) } :=
          hp.symm
        subst hh
        refine ⟨fun j hj => ?_, fun j hj => ?_, rfl⟩
        · exact getD_set_ne _ _ _ _ _ (fun hh => hj hh.symm)
        · exact getD_set_ne _ _ _ _ _ (fun hh => hj hh.symm)
      · have hp := congrArg Prod.fst (Option.some.inj hop)
        have hh : h2 = h := hp.symm.trans (hPop_fst h t)
        subst hh
        exact ⟨fun j _ => rfl, fun j _ => rfl, rfl⟩
    · have hp := congrArg Prod.fst (Option.some.inj hop)
      have hh : h2 = h := hp.symm.trans (hPop_fst h t)
      subst hh
      exact ⟨fun j _ => rfl, fun j _ => rfl, rfl⟩

/-- Footprint of one controller step: every operation writes only the
controller's own backing array, own map object, and own set object. -/
theorem applyH_frame (op : Op) (h : GoHeap) (t : TPRef) (h2 : GoHeap)
    (t2 : TPRef) (hop : applyH op h t = some (h2, t2)) :
    (∀ j, j ≠ t.qarr → h2.qarrs.getD j [] = h.qarrs.getD j []) ∧
    (∀ j, j ≠ t.mref → h2.amaps.getD j [] = h.amaps.getD j []) ∧
    (∀ j, j ≠ t.eref → h2.psets.getD j [] = h.psets.getD j []) := by
  cases op with
  | peek =>
      simp only [applyH] at hop
      have hp := congrArg Prod.fst (Option.some.inj hop)
      have hh : h2 = h := hp.symm
      subst hh
      exact ⟨fun j _ => rfl, fun j _ => rfl, fun j _ => rfl⟩
  | pop =>
      simp only [applyH] at hop
      have hp := congrArg Prod.fst (Option.some.inj hop)
      have hh : h2 = h := hp.symm.trans (hPop_fst h t)
      subst hh
      exact ⟨fun j _ => rfl, fun j _ => rfl, fun j _ => rfl⟩
  | reset pids =>
      simp only [applyH, hReset] at hop
      have hp := congrArg Prod.fst (Option.some.inj hop)
      have hh : h2 = { h with psets := h.psets.set t.eref pids } := hp.symm
      subst hh
      refine ⟨fun j _ => rfl, fun j _ => rfl, fun j hj => ?_⟩
      exact getD_set_ne _ _ _ _ _ (fun hh => hj hh.symm)
  | shift =>
      simp only [applyH] at hop
      obtain ⟨f1, f2, f3⟩ := hShift_frame h t h2 t2 hop
      exact ⟨f1, f2, fun j _ => by rw [f3]⟩

/-- A controller step leaves the three views of any controller referencing
disjoint heap objects unchanged. -/
theorem applyH_view_frame (op : Op) (h : GoHeap) (t : TPRef) (h2 : GoHeap)
    (t2 : TPRef) (r : TPRef) (hop : applyH op h t = some (h2, t2))
    (hq : r.qarr ≠ t.qarr) (hm : r.mref ≠ t.mref) (he : r.eref ≠ t.eref) :
    viewQueue h2 r = viewQueue h r ∧ viewMap h2 r = viewMap h r ∧
      viewEnabled h2 r = viewEnabled h r := by
  obtain ⟨f1, f2, f3⟩ := applyH_frame op h t h2 t2 hop
  refine ⟨?_, ?_, ?_⟩
  · unfold viewQueue
    rw [f1 _ hq]
  · unfold viewMap
    rw [f2 _ hm]
  · unfold viewEnabled
    rw [f3 _ he]

/-- C7: snapshot isolation.  `Copy` produces a faithful snapshot (same queue,
backlog and enabled contents) backed by fresh heap objects; afterwards any
`Peek`/`Shift`/`Pop`/`ResetEnable` performed on the copy leaves all three
views of the original unchanged, and any such operation performed on the
original leaves all three views of the copy unchanged. -/
theorem c7_snapshot_isolation (h : GoHeap) (t : TPRef)
    (hq : t.qarr < h.qarrs.length) (hm : t.mref < h.amaps.length)
    (he : t.eref < h.psets.length) :
    (viewQueue (hCopy h t).1 (hCopy h t).2 = viewQueue h t ∧
      viewMap (hCopy h t).1 (hCopy h t).2 = viewMap h t ∧
      viewEnabled (hCopy h t).1 (hCopy h t).2 = viewEnabled h t) ∧
    (viewQueue (hCopy h t).1 t = viewQueue h t ∧
      viewMap (hCopy h t).1 t = viewMap h t ∧
      viewEnabled (hCopy h t).1 t = viewEnabled h t) ∧
    (∀ op h2 t2, applyH op (hCopy h t).1 (hCopy h t).2 = some (h2, t2) →
      viewQueue h2 t = viewQueue h t ∧ viewMap h2 t = viewMap h t ∧
        viewEnabled h2 t = viewEnabled h t) ∧
    (∀ op h2 t2, applyH op (hCopy h t).1 t = some (h2, t2) →
      viewQueue h2 (hCopy h t).2 = viewQueue (hCopy h t).1 (hCopy h t).2 ∧
        viewMap h2 (hCopy h t).2 = viewMap (hCopy h t).1 (hCopy h t).2 ∧
        viewEnabled h2 (hCopy h t).2 = viewEnabled (hCopy h t).1 (hCopy h t).2) := by
  have hcq : viewQueue (hCopy h t).1 (hCopy h t).2 = viewQueue h t := by
    show (((h.qarrs ++ [viewQueue h t]).getD h.qarrs.length []).drop 0).take
        (viewQueue h t).length = viewQueue h t
    rw [getD_append_len]
    simp
  have hcm : viewMap (hCopy h t).1 (hCopy h t).2 = viewMap h t := by
    show (h.amaps ++ [viewMap h t]).getD h.amaps.length [] = viewMap h t
    exact getD_append_len _ _ _
  have hce : viewEnabled (hCopy h t).1 (hCopy h t).2 = viewEnabled h t := by
    show (h.psets ++ [viewEnabled h t]).getD h.psets.length [] = viewEnabled h t
    exact getD_append_len _ _ _
  have hoq : viewQueue (hCopy h t).1 t = viewQueue h t := by
    unfold viewQueue hCopy
    rw [getD_append_lt _ _ _ _ hq]
  have hom : viewMap (hCopy h t).1 t = viewMap h t := by
    unfold viewMap hCopy
    exact getD_append_lt _ _ _ _ hm
  have hoe : viewEnabled (hCopy h t).1 t = viewEnabled h t := by
    unfold viewEnabled hCopy
    exact getD_append_lt _ _ _ _ he
  refine ⟨⟨hcq, hcm, hce⟩, ⟨hoq, hom, hoe⟩, ?_, ?_⟩
  · intro op h2 t2 hop
    have hfr := applyH_view_frame op (hCopy h t).1 (hCopy h t).2 h2 t2 t hop
      (Nat.ne_of_lt hq) (Nat.ne_of_lt hm) (Nat.ne_of_lt he)
    exact ⟨hfr.1.trans hoq, hfr.2.1.trans hom, hfr.2.2.trans hoe⟩
  · intro op h2 t2 hop
    exact applyH_view_frame op (hCopy h t).1 t h2 t2 (hCopy h t).2 hop
      (Nat.ne_of_gt hq) (Nat.ne_of_gt hm) (Nat.ne_of_gt he)

/-- C7 witness: on a concrete one-transaction controller, the copy sees the
same queue, and popping the copy leaves the original's queue view intact. -/
theorem c7_snapshot_witness :
    viewQueue (hCopy ⟨[[txPlainA]], [[(1, [])]], [[]]⟩ ⟨0, 0, 1, 0, 0⟩).1
        (hCopy ⟨[[txPlainA]], [[(1, [])]], [[]]⟩ ⟨0, 0, 1, 0, 0⟩).2 =
      viewQueue ⟨[[txPlainA]], [[(1, [])]], [[]]⟩ ⟨0, 0, 1, 0, 0⟩ ∧
    viewQueue (hCopy ⟨[[txPlainA]], [[(1, [])]], [[]]⟩ ⟨0, 0, 1, 0, 0⟩).1
        ⟨0, 0, 1, 0, 0⟩ =
      viewQueue ⟨[[txPlainA]], [[(1, [])]], [[]]⟩ ⟨0, 0, 1, 0, 0⟩ := by
  have h := c7_snapshot_isolation ⟨[[txPlainA]], [[(1, [])]], [[]]⟩
    ⟨0, 0, 1, 0, 0⟩ (by decide) (by decide) (by decide)
  exact ⟨h.1.1, h.2.1.1⟩

/-- The plain (non-package) transactions of one account currently in the
queue. -/
def plainOf (a : Address) (q : List Transaction) : List Transaction :=
  q.filter (fun tx => !tx.IsPuissant && decide (tx.sender = a))

/-- Backlog lookup with the Go zero value for a missing key. -/
def lookupD (m : AMap) (a : Address) : List Transaction :=
  (mapLookup m a).getD []

/-- Well-formed constructor input: account keys are distinct and every
account's list is nonempty, correctly attributed to its signer, and made of
plain transactions. -/
def WFMap (m : AMap) : Prop :=
  (m.map Prod.fst).Nodup ∧
  ∀ e ∈ m, e.2 ≠ [] ∧ ∀ tx ∈ e.2, tx.sender = e.1 ∧ tx.pid = 0

/-- Well-formed packages: every package transaction carries a package id. -/
def WFPkgs (packages : List PuissantPackage) : Prop :=
  ∀ p ∈ packages, ∀ tx ∈ p.txs, tx.pid ≠ 0

/-- The per-account sequencing invariant: the backlog map only mentions
input accounts, and each input account has at most one plain queue
transaction, with its plain queue transaction followed by its backlog
forming a suffix of its original list. -/
def accountInvariant (m0 : AMap) (s : TPState) : Prop :=
  (∀ a bs, mapLookup s.txs a = some bs → a ∈ m0.map Prod.fst) ∧
  ∀ a l, (a, l) ∈ m0 →
    (plainOf a s.queue).length ≤ 1 ∧
    (plainOf a s.queue ++ lookupD s.txs a) <:+ l

/-- A permutation of a short list is that list. -/
theorem perm_eq_of_len_le_one {l1 l2 : List Transaction}
    (h : l1.Perm l2) (hl : l2.length ≤ 1) : l1 = l2 := by
  cases l2 with
  | nil => exact List.perm_nil.mp h
  | cons x xs =>
      cases xs with
      | nil => exact List.perm_singleton.mp h
      | cons y ys => simp at hl

/-- Distinct keys determine the value of a membership. -/
theorem amap_mem_unique (m : AMap) (hnd : (m.map Prod.fst).Nodup)
    {a : Address} {x y : List Transaction} (hx : (a, x) ∈ m)
    (hy : (a, y) ∈ m) : x = y := by
  induction m with
  | nil => simp at hx
  | cons e rest ih =>
      obtain ⟨k, w⟩ := e
      simp only [List.map_cons, List.nodup_cons] at hnd
      obtain ⟨hknot, hndr⟩ := hnd
      rcases List.mem_cons.mp hx with h1 | h1 <;>
        rcases List.mem_cons.mp hy with h2 | h2
      · have e1 : x = w := congrArg Prod.snd h1
        have e2 : y = w := congrArg Prod.snd h2
        rw [e1, e2]
      · have e1 : k = a := (congrArg Prod.fst h1).symm
        subst e1
        exact absurd (List.mem_map.mpr ⟨(k, y), h2, rfl⟩) hknot
      · have e2 : k = a := (congrArg Prod.fst h2).symm
        subst e2
        exact absurd (List.mem_map.mpr ⟨(k, x), h1, rfl⟩) hknot
      · exact ih hndr h1 h2

/-- Unfolding the head collection over a passing entry. -/
theorem specHeads_cons_pass (k : Address) (w0 : Transaction)
    (wtl : List Transaction) (rest : AMap)
    (hp : passes (k, w0 :: wtl) = true) :
    specHeads ((k, w0 :: wtl) :: rest) = w0 :: specHeads rest := by
  simp only [specHeads, List.filter_cons, hp, if_pos, List.filterMap_cons,
    List.head?_cons]

/-- Unfolding the head collection over a failing entry. -/
theorem specHeads_cons_fail (k : Address) (w : List Transaction) (rest : AMap)
    (hp : passes (k, w) = false) :
    specHeads ((k, w) :: rest) = specHeads rest := by
  simp only [specHeads, List.filter_cons]
  rw [if_neg (by simp [hp])]

/-- Unfolding the plain-transaction filter over a cons cell. -/
theorem plainOf_cons (a : Address) (x : Transaction) (xs : List Transaction) :
    plainOf a (x :: xs) =
      if (!x.IsPuissant && decide (x.sender = a)) = true then x :: plainOf a xs
      else plainOf a xs := by
  simp [plainOf, List.filter_cons]

/-- No plain transaction of an absent account appears among the heads. -/
theorem plainOf_specHeads_notmem (m : AMap)
    (hattr : ∀ e ∈ m, ∀ tx ∈ e.2, tx.sender = e.1) (a : Address)
    (ha : a ∉ m.map Prod.fst) : plainOf a (specHeads m) = [] := by
  apply List.filter_eq_nil_iff.mpr
  intro tx htx
  obtain ⟨e, he, hhd⟩ := List.mem_filterMap.mp htx
  have hem : e ∈ m := (List.mem_filter.mp he).1
  have htxe : tx ∈ e.2 := by
    cases hl : e.2 with
    | nil => rw [hl] at hhd; simp at hhd
    | cons z zs =>
        rw [hl] at hhd
        simp only [List.head?_cons, Option.some.injEq] at hhd
        subst hhd
        exact List.mem_cons_self _ _
  have hs : tx.sender = e.1 := hattr e hem tx htxe
  have hne : e.1 ≠ a := fun hh =>
    ha (List.mem_map.mpr ⟨e, hem, hh⟩)
  simp [hs, hne]

/-- The heads contain exactly one plain transaction of a passing account:
its own head. -/
theorem plainOf_specHeads_pass (m : AMap)
    (hnd : (m.map Prod.fst).Nodup)
    (hattr : ∀ e ∈ m, ∀ tx ∈ e.2, tx.sender = e.1 ∧ tx.pid = 0)
    (a : Address) (tx0 : Transaction) (tl : List Transaction)
    (hm : (a, tx0 :: tl) ∈ m) (hp : tx0.sender = a) :
    plainOf a (specHeads m) = [tx0] := by
  induction m with
  | nil => simp at hm
  | cons e rest ih =>
      obtain ⟨k, w⟩ := e
      simp only [List.map_cons, List.nodup_cons] at hnd
      obtain ⟨hknot, hndr⟩ := hnd
      rcases List.mem_cons.mp hm with h1 | h1
      · have e1 : k = a := (congrArg Prod.fst h1.symm)
        have e2 : w = tx0 :: tl := (congrArg Prod.snd h1.symm)
        subst e1
        subst e2
        have hpass : passes (k, tx0 :: tl) = true := by
          simp [passes, hp]
        have hplain : tx0.pid = 0 :=
          (hattr (k, tx0 :: tl) (List.mem_cons_self _ _) tx0
            (List.mem_cons_self _ _)).2
        have hrest : plainOf k (specHeads rest) = [] := by
          refine plainOf_specHeads_notmem rest ?_ k (by simpa using hknot)
          intro e he tx htx
          exact (hattr e (List.mem_cons_of_mem _ he) tx htx).1
        rw [specHeads_cons_pass _ _ _ _ hpass, plainOf_cons]
        rw [if_pos (by simp [Transaction.IsPuissant, pidIsPuissant, hplain, hp])]
        rw [hrest]
      · have hka : k ≠ a := by
          intro hh
          subst hh
          exact hknot (List.mem_map.mpr ⟨(k, tx0 :: tl), h1, rfl⟩)
        have hih := ih hndr (fun e he tx htx =>
          hattr e (List.mem_cons_of_mem _ he) tx htx) h1
        by_cases hpk : passes (k, w)
        · obtain ⟨w0, wtl, rfl⟩ : ∃ w0 wtl, w = w0 :: wtl := by
            cases w with
            | nil => simp [passes] at hpk
            | cons w0 wtl => exact ⟨w0, wtl, rfl⟩
          have hw0 : w0.sender = k :=
            (hattr (k, w0 :: wtl) (List.mem_cons_self _ _) w0
              (List.mem_cons_self _ _)).1
          rw [specHeads_cons_pass _ _ _ _ hpk, plainOf_cons]
          rw [if_neg (by simp [hw0, hka])]
          exact hih
        · rw [specHeads_cons_fail _ _ _ (by simpa using hpk)]
          exact hih

/-- The heads contain no plain transaction of a failing account. -/
theorem plainOf_specHeads_fail (m : AMap)
    (hnd : (m.map Prod.fst).Nodup)
    (hattr : ∀ e ∈ m, ∀ tx ∈ e.2, tx.sender = e.1 ∧ tx.pid = 0)
    (a : Address) (l : List Transaction)
    (hm : (a, l) ∈ m) (hp : passes (a, l) = false) :
    plainOf a (specHeads m) = [] := by
  induction m with
  | nil => simp at hm
  | cons e rest ih =>
      obtain ⟨k, w⟩ := e
      simp only [List.map_cons, List.nodup_cons] at hnd
      obtain ⟨hknot, hndr⟩ := hnd
      rcases List.mem_cons.mp hm with h1 | h1
      · have e1 : k = a := (congrArg Prod.fst h1.symm)
        have e2 : w = l := (congrArg Prod.snd h1.symm)
        subst e1
        subst e2
        rw [specHeads_cons_fail _ _ _ hp]
        refine plainOf_specHeads_notmem rest ?_ k (by simpa using hknot)
        intro e he tx htx
        exact (hattr e (List.mem_cons_of_mem _ he) tx htx).1
      · have hka : k ≠ a := by
          intro hh
          subst hh
          exact hknot (List.mem_map.mpr ⟨(k, l), h1, rfl⟩)
        have hih := ih hndr (fun e he tx htx =>
          hattr e (List.mem_cons_of_mem _ he) tx htx) h1
        by_cases hpk : passes (k, w)
        · obtain ⟨w0, wtl, rfl⟩ : ∃ w0 wtl, w = w0 :: wtl := by
            cases w with
            | nil => simp [passes] at hpk
            | cons w0 wtl => exact ⟨w0, wtl, rfl⟩
          have hw0 : w0.sender = k :=
            (hattr (k, w0 :: wtl) (List.mem_cons_self _ _) w0
              (List.mem_cons_self _ _)).1
          rw [specHeads_cons_pass _ _ _ _ hpk, plainOf_cons]
          rw [if_neg (by simp [hw0, hka])]
          exact hih
        · rw [specHeads_cons_fail _ _ _ (by simpa using hpk)]
          exact hih

/-- Package transactions never contribute plain queue entries. -/
theorem plainOf_packages (packages : List PuissantPackage)
    (hpk : WFPkgs packages) (a : Address) :
    plainOf a ((packages.map PuissantPackage.txs).flatten) = [] := by
  apply List.filter_eq_nil_iff.mpr
  intro tx htx
  obtain ⟨l, hl, htxl⟩ := List.mem_flatten.mp htx
  obtain ⟨p, hp, rfl⟩ := List.mem_map.mp hl
  have := hpk p hp tx htxl
  simp [Transaction.IsPuissant, pidIsPuissant, this]

/-- The invariant holds right after construction. -/
theorem inv_init (m0 : AMap) (packages : List PuissantPackage)
    (hwf : WFMap m0) (hpk : WFPkgs packages) (s0 : TPState)
    (h0 : newTransactionsPuissant m0 packages = some s0) :
    accountInvariant m0 s0 := by
  obtain ⟨hnd, hacc⟩ := hwf
  have hne : ∀ e ∈ m0, e.2 ≠ [] := fun e he => (hacc e he).1
  have hattr : ∀ e ∈ m0, ∀ tx ∈ e.2, tx.sender = e.1 ∧ tx.pid = 0 :=
    fun e he => (hacc e he).2
  unfold newTransactionsPuissant at h0
  rw [collectHeads_eq _ hne] at h0
  obtain rfl : (⟨specBacklog m0,
      sortQ (specHeads m0 ++ (packages.map PuissantPackage.txs).flatten),
      []⟩ : TPState) = s0 := Option.some.inj h0
  constructor
  · intro a bs hlk
    dsimp only at hlk
    by_contra hmem
    rw [mapLookup_specBacklog_notmem m0 a hmem] at hlk
    exact Option.noConfusion hlk
  · intro a l hm
    dsimp only
    have hfl : (plainOf a
        (sortQ (specHeads m0 ++ (packages.map PuissantPackage.txs).flatten))).Perm
        (plainOf a (specHeads m0 ++ (packages.map PuissantPackage.txs).flatten)) := by
      unfold plainOf
      exact (sortQ_perm _).filter _
    have hsplit : plainOf a
        (specHeads m0 ++ (packages.map PuissantPackage.txs).flatten) =
        plainOf a (specHeads m0) := by
      unfold plainOf
      rw [List.filter_append]
      have hz := plainOf_packages packages hpk a
      unfold plainOf at hz
      rw [hz, List.append_nil]
    rw [hsplit] at hfl
    by_cases hpass : passes (a, l) = true
    · obtain ⟨tx0, tl, rfl⟩ : ∃ tx0 tl, l = tx0 :: tl := by
        cases l with
        | nil => simp [passes] at hpass
        | cons tx0 tl => exact ⟨tx0, tl, rfl⟩
      have hs : tx0.sender = a := by simpa [passes] using hpass
      have hph := plainOf_specHeads_pass m0 hnd hattr a tx0 tl hm hs
      rw [hph] at hfl
      have heq := List.perm_singleton.mp hfl
      rw [heq]
      constructor
      · simp
      · rw [lookupD, mapLookup_specBacklog_pass m0 hnd a _ hm hpass]
        simp
    · have hph := plainOf_specHeads_fail m0 hnd hattr a l hm
        (by simpa using hpass)
      rw [hph] at hfl
      have heq := List.perm_nil.mp hfl
      rw [heq]
      constructor
      · simp
      · rw [lookupD, mapLookup_specBacklog_fail m0 hnd a _ hm
          (by simpa using hpass)]
        simp

/-- `Pop` preserves the invariant. -/
theorem inv_pop (m0 : AMap) (s : TPState) (hinv : accountInvariant m0 s) :
    accountInvariant m0 (popTP s) := by
  obtain ⟨hA, hB⟩ := hinv
  unfold popTP
  split
  · constructor
    · intro a bs hlk
      exact hA a bs hlk
    · intro a l hm
      obtain ⟨h1, h2⟩ := hB a l hm
      dsimp only
      cases hq : s.queue with
      | nil => simp_all
      | cons x rest =>
          simp only [List.tail_cons]
          rw [hq] at h1 h2
          rw [plainOf_cons] at h1 h2
          by_cases hx : (!x.IsPuissant && decide (x.sender = a)) = true
          · rw [if_pos hx] at h1 h2
            have hnil : plainOf a rest = [] := by
              cases hpl : plainOf a rest with
              | nil => rfl
              | cons u us => rw [hpl] at h1; simp at h1
            rw [hnil]
            rw [hnil] at h2
            refine ⟨by simp, ?_⟩
            simp only [List.nil_append, List.singleton_append] at h2 ⊢
            exact (List.suffix_cons x _).trans h2
          · rw [if_neg hx] at h1 h2
            exact ⟨h1, h2⟩
  · exact ⟨hA, hB⟩

/-- Every controller step preserves the invariant. -/
theorem inv_step (m0 : AMap) (hwf : WFMap m0) (op : Op) (s s' : TPState)
    (hstep : stepTP op s = some s') (hinv : accountInvariant m0 s) :
    accountInvariant m0 s' := by
  obtain ⟨hnd, hacc⟩ := hwf
  cases op with
  | reset pids =>
      obtain rfl : resetEnable s pids = s' := Option.some.inj hstep
      exact ⟨hinv.1, hinv.2⟩
  | pop =>
      obtain rfl : popTP s = s' := Option.some.inj hstep
      exact inv_pop m0 s hinv
  | peek =>
      obtain rfl : (peekTP s).2 = s' := Option.some.inj hstep
      have hq2 : (peekTP s).2 =
          { s with queue := s.queue.dropWhile (badHead s.enabled) } := by
        unfold peekTP
        rw [peekQueue_eq]
      rw [hq2]
      obtain ⟨hA, hB⟩ := hinv
      constructor
      · intro a bs hlk
        exact hA a bs hlk
      · intro a l hm
        obtain ⟨h1, h2⟩ := hB a l hm
        dsimp only
        have htk : plainOf a (s.queue.takeWhile (badHead s.enabled)) = [] := by
          apply List.filter_eq_nil_iff.mpr
          intro tx htx
          have hbad := List.mem_takeWhile_imp htx
          unfold badHead at hbad
          simp only [Bool.and_eq_true] at hbad
          simp [Transaction.IsPuissant, hbad.1]
        have hsp : plainOf a s.queue =
            plainOf a (s.queue.dropWhile (badHead s.enabled)) := by
          conv_lhs => rw [← List.takeWhile_append_dropWhile
            (p := badHead s.enabled) (l := s.queue)]
          unfold plainOf
          rw [List.filter_append]
          unfold plainOf at htk
          rw [htk, List.nil_append]
        rw [← hsp]
        exact ⟨h1, h2⟩
  | shift =>
      simp only [stepTP] at hstep
      unfold shiftTP at hstep
      cases hq : s.queue with
      | nil => rw [hq] at hstep; exact Option.noConfusion hstep
      | cons head rest =>
          rw [hq] at hstep
          dsimp only at hstep
          cases hp : head.IsPuissant with
          | true =>
              rw [hp] at hstep
              simp only [Bool.not_true, Bool.false_eq_true, if_false] at hstep
              obtain rfl := Option.some.inj hstep
              exact inv_pop m0 s hinv
          | false =>
              rw [hp] at hstep
              simp only [Bool.not_false, if_true] at hstep
              cases hml : mapLookup s.txs head.sender with
              | none =>
                  rw [hml] at hstep
                  dsimp only at hstep
                  obtain rfl := Option.some.inj hstep
                  exact inv_pop m0 s hinv
              | some bl =>
                  cases bl with
                  | nil =>
                      rw [hml] at hstep
                      dsimp only at hstep
                      obtain rfl := Option.some.inj hstep
                      exact inv_pop m0 s hinv
                  | cons b bs =>
                      rw [hml] at hstep
                      dsimp only at hstep
                      obtain rfl := Option.some.inj hstep
                      obtain ⟨hA, hB⟩ := hinv
                      have ha0mem : head.sender ∈ m0.map Prod.fst :=
                        hA head.sender (b :: bs) hml
                      obtain ⟨e0, he0, he0f⟩ := List.mem_map.mp ha0mem
                      obtain ⟨a0x, l0⟩ := e0
                      dsimp only at he0f
                      subst he0f
                      obtain ⟨h1, h2⟩ := hB head.sender l0 he0
                      rw [hq, plainOf_cons] at h1 h2
                      have hcond : (!head.IsPuissant &&
                          decide (head.sender = head.sender)) = true := by
                        simp [hp]
                      rw [if_pos hcond] at h1 h2
                      have hnil : plainOf head.sender rest = [] := by
                        cases hpl : plainOf head.sender rest with
                        | nil => rfl
                        | cons u us => rw [hpl] at h1; simp at h1
                      rw [hnil] at h2
                      have hlkd : lookupD s.txs head.sender = b :: bs := by
                        simp [lookupD, hml]
                      rw [hlkd] at h2
                      simp only [List.nil_append, List.singleton_append] at h2
                      have hbbs : (b :: bs) <:+ l0 :=
                        (List.suffix_cons head _).trans h2
                      have hbmem : b ∈ l0 :=
                        hbbs.subset (List.mem_cons_self _ _)
                      have hbattr := (hacc (head.sender, l0) he0).2 b hbmem
                      constructor
                      · intro a bs' hlk
                        dsimp only at hlk
                        by_cases haa : a = head.sender
                        · subst haa
                          exact ha0mem
                        · rw [mapLookup_mapUpdate_ne _ _ _ _ haa] at hlk
                          exact hA a bs' hlk
                      · intro a l hm
                        dsimp only
                        have hfl : (plainOf a (sortQ (b :: rest))).Perm
                            (plainOf a (b :: rest)) := by
                          unfold plainOf
                          exact (sortQ_perm _).filter _
                        have hbs : b.sender = head.sender := hbattr.1
                        by_cases haa : a = head.sender
                        · subst haa
                          have hl0 : l = l0 := amap_mem_unique m0 hnd hm he0
                          subst hl0
                          have hpb : plainOf head.sender (b :: rest) = [b] := by
                            rw [plainOf_cons, if_pos (by
                              simp [Transaction.IsPuissant, pidIsPuissant,
                                hbs, hbattr.2]), hnil]
                          rw [hpb] at hfl
                          have heq1 := List.perm_singleton.mp hfl
                          rw [heq1]
                          refine ⟨by simp, ?_⟩
                          have hlk2 : lookupD (mapUpdate s.txs head.sender bs)
                              head.sender = bs := by
                            simp [lookupD, mapLookup_mapUpdate_self]
                          rw [hlk2]
                          simpa using hbbs
                        · obtain ⟨g1, g2⟩ := hB a l hm
                          rw [hq, plainOf_cons] at g1 g2
                          have hns : ¬ head.sender = a := fun hh => haa hh.symm
                          rw [if_neg (by simp [hns])] at g1 g2
                          have hbno : plainOf a (b :: rest) =
                              plainOf a rest := by
                            rw [plainOf_cons, if_neg (by simp [hbs, hns])]
                          rw [hbno] at hfl
                          have heq1 := perm_eq_of_len_le_one hfl g1
                          rw [heq1]
                          have hlk2 : lookupD (mapUpdate s.txs head.sender bs) a =
                              lookupD s.txs a := by
                            simp [lookupD, mapLookup_mapUpdate_ne _ _ _ _ haa]
                          rw [hlk2]
                          exact ⟨g1, g2⟩

/-- Any run of controller operations preserves the invariant. -/
theorem inv_run (m0 : AMap) (hwf : WFMap m0) (ops : List Op) (s s' : TPState)
    (hinv : accountInvariant m0 s) (hrun : runTP ops s = some s') :
    accountInvariant m0 s' := by
  induction ops generalizing s with
  | nil =>
      obtain rfl : s = s' := Option.some.inj hrun
      exact hinv
  | cons op ops ih =>
      unfold runTP at hrun
      cases hst : stepTP op s with
      | none => rw [hst] at hrun; exact Option.noConfusion hrun
      | some s1 =>
          rw [hst] at hrun
          exact ih s1 (inv_step m0 hwf op s s1 hst hinv) hrun

/-- A package transaction whose signer is account 1 (also a plain sender). -/
def txPkgAcct1 : Transaction := ⟨5, 0, 9, 1, 0, 1⟩

/-- C5 counterexample: the queue holds every package transaction besides the
per-account heads, so an account that also signs a package transaction has
two queue transactions already at construction time (before any operation
runs). -/
theorem c5_counterexample :
    (newTransactionsPuissant [(1, [txPlainA])]
        [⟨9, [txPkgAcct1], 100, some 5⟩]).map
      (fun s => (s.queue.filter (fun tx => decide (tx.sender = 1))).length) =
    some 2 := by
  decide

/-- C5 amended: assuming every input account list is nonempty, consists of
plain transactions signed by that account, keys are distinct, and package
transactions all carry package ids, then after any run of
peek/advance/drop/resetEnabled operations every account has at most one
plain (non-package) transaction in the queue, and that transaction followed
by the account's remaining backlog is a suffix of the account's original
list -- so the account's own transactions are offered one at a time and in
original backlog order. -/
theorem c5_account_sequencing (m0 : AMap) (packages : List PuissantPackage)
    (hwf : WFMap m0) (hpk : WFPkgs packages) (s0 s : TPState) (ops : List Op)
    (h0 : newTransactionsPuissant m0 packages = some s0)
    (hrun : runTP ops s0 = some s) :
    ∀ a l, (a, l) ∈ m0 →
      (plainOf a s.queue).length ≤ 1 ∧
      (plainOf a s.queue ++ lookupD s.txs a) <:+ l := by
  have hinv := inv_run m0 hwf ops s0 s
    (inv_init m0 packages hwf hpk s0 h0) hrun
  exact hinv.2

/-- C5 witness: a two-transaction account driven through one advance keeps a
single plain queue transaction, and its queue-plus-backlog remains a suffix
of the original list. -/
theorem c5_sequencing_witness :
    (plainOf 1 [txPlainA2]).length ≤ 1 ∧
    (plainOf 1 [txPlainA2] ++ lookupD [(1, [])] 1) <:+ [txPlainA, txPlainA2] := by
  have h := c5_account_sequencing [(1, [txPlainA, txPlainA2])] []
    (by unfold WFMap; decide) (by unfold WFPkgs; decide)
    ⟨[(1, [txPlainA2])], [txPlainA], []⟩ ⟨[(1, [])], [txPlainA2], []⟩
    [Op.shift] (by decide) (by decide)
  exact h 1 [txPlainA, txPlainA2] (by decide)
